import Mathlib

/-!
# Verification of the intellimed claim-verification core (`src/validate.py`)

Shallow embedding of `ValidationDict` from `src/validate.py`: the greedy
n-gram matcher, the triangular-bonus scorer, the verdict classifier and the
aggregation loop `validate`, together with proofs of the specification claims.

Strings are modelled as `List Char`; Python `float` arithmetic on the scores is
modelled exactly over `ℚ` (all quantities involved are dyadic rationals of tiny
numerators, where Python floats are exact); Python `dict` buckets are modelled
as insertion-ordered association lists with update-in-place semantics.
-/

namespace Intellimed

/-- Does `needle` match the front of `hay`?  (Building block for Python's
substring test `needle in hay`.) -/
def frontMatches : List Char → List Char → Bool
  | [], _ => true
  | _ :: _, [] => false
  | a :: as, b :: bs => a == b && frontMatches as bs

/-- Python's literal substring containment `needle in hay` on character
lists: `charsContains hay needle = true` iff `needle` occurs contiguously in
`hay` (the empty needle is contained in every haystack). -/
def charsContains : List Char → List Char → Bool
  | [], needle => needle.isEmpty
  | c :: rest, needle => frontMatches needle (c :: rest) || charsContains rest needle

/-- `str.lower()` on a character list. -/
def lowerChars (s : List Char) : List Char := s.map Char.toLower

/-- The word-character class of the regex `\w` (letters, digits, underscore)
used by `token_re = re.compile(r"\w+", re.UNICODE)` in `_score_item`. -/
def isWordChar (c : Char) : Bool := c.isAlphanum || c == '_'

/-- Helper for `tokenize`: scans the text accumulating the current word
(reversed) in `acc`. -/
def tokenizeAux : List Char → List Char → List (List Char)
  | [], acc => if acc.isEmpty then [] else [acc.reverse]
  | c :: rest, acc =>
      if isWordChar c then tokenizeAux rest (c :: acc)
      else if acc.isEmpty then tokenizeAux rest []
      else acc.reverse :: tokenizeAux rest []

/-- `token_re.findall(text)`: the maximal runs of word characters of `text`,
in left-to-right order. -/
def tokenize (text : List Char) : List (List Char) := tokenizeAux text []

/-- `" ".join(ws)`. -/
def joinSp : List (List Char) → List Char
  | [] => []
  | [w] => w
  | w :: ws => w ++ ' ' :: joinSp ws

/-- The inner `for L in range(n - i, 0, -1)` loop of `_score_item`, started at
`Lmax = n - i`: try the phrase `" ".join(words[i : i + L])` for `L = Lmax`
down to `1`, returning the first (hence largest) `L` that is a literal
substring of `text`, together with its phrase (the one `break` appends to
`matched_phrases`), or `none` when no length matches. -/
def findRun (words : List (List Char)) (text : List Char) (i : ℕ) : ℕ → Option (ℕ × List Char)
  | 0 => none
  | L + 1 =>
      if charsContains text (joinSp ((words.drop i).take (L + 1))) then
        some (L + 1, joinSp ((words.drop i).take (L + 1)))
      else findRun words text i L

/-- The `while i < n` loop of `_score_item`, with an explicit fuel parameter
bounding the number of iterations (each iteration advances `i` by at least 1,
so `fuel = words.length` suffices from `i = 0`; `matchAux_fuel_adequate`
below makes this exact).  Returns the pair `(runs, matched_phrases)`. -/
def matchAux (words : List (List Char)) (text : List Char) : ℕ → ℕ → List ℕ × List (List Char)
  | 0, _ => ([], [])
  | fuel + 1, i =>
      if i < words.length then
        match findRun words text i (words.length - i) with
        | some (L, p) =>
            (L :: (matchAux words text fuel (i + L)).1,
             p :: (matchAux words text fuel (i + L)).2)
        | none => matchAux words text fuel (i + 1)
      else ([], [])

/-- The matcher of `_score_item`: runs and matched phrases of `words`
against the (already lower-cased) source `text`. -/
def matchRuns (words : List (List Char)) (text : List Char) : List ℕ × List (List Char) :=
  matchAux words text words.length 0

/-- `base_matches = sum(runs)` together with the triangular bonus
`sum((r * (r - 1) / 2) * bonus_factor for r in runs)`:
`raw_score = base_matches + bonus`. -/
def rawScore (runs : List ℕ) (bf : ℚ) : ℚ :=
  (runs.map fun r : ℕ => (r : ℚ)).sum + (runs.map fun r : ℕ => ((r : ℚ) * ((r : ℚ) - 1) / 2) * bf).sum

/-- `max_score = n + ((n * (n - 1) / 2) * bonus_factor)`: the theoretical
maximum, reached when all `n` tokens match in a single run. -/
def maxScore (n : ℕ) (bf : ℚ) : ℚ :=
  (n : ℚ) + ((n : ℚ) * ((n : ℚ) - 1) / 2) * bf

/-- `max(0.0, min(1.0, confidence))` — the safety clamp of `_score_item`. -/
def clamp01 (x : ℚ) : ℚ := max 0 (min 1 x)

/-- `_score_item(item_str, bonus_factor)`: tokenize the lower-cased item,
return `(0.0, [])` when it has no tokens, otherwise match its tokens against
the lower-cased plaintext, normalize the raw score by the theoretical
maximum and clamp to `[0, 1]`; returns `(confidence, matched_phrases)`.
Python float arithmetic is modelled exactly over `ℚ`. -/
def scoreItem (item_str : List Char) (plaintext : List Char) (bf : ℚ) : ℚ × List (List Char) :=
  let words := tokenize (lowerChars item_str)
  if words.isEmpty then (0, [])
  else
    let text := lowerChars plaintext
    let mr := matchRuns words text
    let raw := rawScore mr.1 bf
    let maxS := maxScore words.length bf
    let confidence := if 0 < maxS then raw / maxS else 0
    (clamp01 confidence, mr.2)

/-- The closed subject set `_subjects = ("injuries", "treatments")`. -/
inductive Subject where
  | injuries
  | treatments
deriving DecidableEq

/-- The verdict set `_verdicts = ("verified", "unverified")`. -/
inductive Verdict where
  | verified
  | unverified
deriving DecidableEq

/-- A dynamically-typed Python value occurring in a claims list: a string or
(malformed input) an integer. -/
inductive PyVal where
  | pystr (s : List Char)
  | pyint (z : ℤ)
deriving DecidableEq

/-- Python's `str(item)` coercion applied by `validate` to every item. -/
def pyStr : PyVal → List Char
  | .pystr s => s
  | .pyint z => if z < 0 then '-' :: Nat.toDigits 10 z.natAbs else Nat.toDigits 10 z.toNat

/-- Insertion into a Python `dict` modelled as an insertion-ordered
association list: an existing key keeps its position and gets the new value,
a fresh key is appended at the end. -/
def dictInsert {α : Type} : List (List Char × α) → List Char → α → List (List Char × α)
  | [], k, v => [(k, v)]
  | (k', v') :: rest, k, v =>
      if k' = k then (k', v) :: rest else (k', v') :: dictInsert rest k v

/-- The keys of an association-list dict, in insertion order. -/
def dictKeys {α : Type} (d : List (List Char × α)) : List (List Char) := d.map Prod.fst

/-- The mutable state of a `ValidationDict`: the report buckets
(`self[subj][verdict]`, a dict from item string to `(confidence, matches)`)
and the per-item counters `match_counts`. -/
structure VState where
  report : Subject → Verdict → List (List Char × (ℚ × List (List Char)))
  matchCounts : Subject → Verdict → ℕ

/-- `ValidationDict.__init__`: empty buckets and zero counts. -/
def initState : VState := ⟨fun _ _ => [], fun _ _ => 0⟩

/-- `_set(item, matches, confidence, subj, verdict)`: store the scored item
in its bucket and increment the matching counter. -/
def setItem (st : VState) (item : List Char) (phrases : List (List Char))
    (confidence : ℚ) (subj : Subject) (verdict : Verdict) : VState where
  report := fun s v =>
    if s = subj ∧ v = verdict then dictInsert (st.report s v) item (confidence, phrases)
    else st.report s v
  matchCounts := fun s v =>
    if s = subj ∧ v = verdict then st.matchCounts s v + 1 else st.matchCounts s v

/-- The verdict expression of `validate`:
`"verified" if confidence >= threshold and matches else "unverified"`. -/
def verdictOf (confidence : ℚ) (phrases : List (List Char)) (threshold : ℚ) : Verdict :=
  if threshold ≤ confidence ∧ phrases ≠ [] then .verified else .unverified

/-- The body of `validate`'s inner loop for one item: coerce via `str`,
score against the plaintext (with the default `bonus_factor = 0.5`),
classify, store. -/
def processItem (plaintext : List Char) (threshold : ℚ) (subj : Subject)
    (st : VState) (item : PyVal) : VState :=
  let item_str := pyStr item
  let cm := scoreItem item_str plaintext (1 / 2)
  setItem st item_str cm.2 cm.1 subj (verdictOf cm.1 cm.2 threshold)

/-- Subject iteration order of `validate` (`for subj in self._subjects`). -/
def subjects : List Subject := [.injuries, .treatments]

/-- `validate(threshold)`: for each subject, for each item of
`base_results.get(subj, ())` in order, score, classify and store.  An absent
subject key behaves as the empty list, so `base_results` is modelled as a
total function into item lists.  The Python method returns
`(self, self.match_counts)`, i.e. exactly the final `VState`. -/
def validate (plaintext : List Char) (base_results : Subject → List PyVal)
    (threshold : ℚ) : VState :=
  subjects.foldl
    (fun st subj => (base_results subj).foldl (processItem plaintext threshold subj) st)
    initState

/-! ## Specification-side matcher (for the refinement claim C1)

`specStep`, `specAux` and `specMatch` follow the wording of §4.2 of the
specification: at each position `i`, take the *largest* `L` in `[1, n - i]`
whose phrase `join(claim_tokens[i:i+L], " ")` is a literal substring of the
source text; record a run of that length and advance by `L`, otherwise
advance by `1`. -/

/-- Modelled from the spec (§4.2, step 2): the largest candidate length `L`
with `1 ≤ L ≤ n - i` whose phrase is contained in `text`, or `0` when no
candidate length matches. -/
def specStep (words : List (List Char)) (text : List Char) (i : ℕ) : ℕ :=
  Nat.findGreatest
    (fun L => 0 < L ∧ charsContains text (joinSp ((words.drop i).take L)) = true)
    (words.length - i)

/-- Modelled from the spec (§4.2): the greedy longest-first left-to-right
single pass, with the same fuel convention as `matchAux`. -/
def specAux (words : List (List Char)) (text : List Char) : ℕ → ℕ → List ℕ × List (List Char)
  | 0, _ => ([], [])
  | fuel + 1, i =>
      if i < words.length then
        let L := specStep words text i
        if L = 0 then specAux words text fuel (i + 1)
        else
          let r := specAux words text fuel (i + L)
          (L :: r.1, joinSp ((words.drop i).take L) :: r.2)
      else ([], [])

/-- Modelled from the spec (§4.2): the matcher as the spec describes it. -/
def specMatch (words : List (List Char)) (text : List Char) : List ℕ × List (List Char) :=
  specAux words text words.length 0

/-- The shape invariant of the matcher output (claim C10): starting from
claim position `i`, the recorded runs and phrases pair up one-to-one, each
phrase is the single-space join of a contiguous slice of the claim tokens,
occurs as a literal substring of the source text, and successive runs sit at
strictly advancing claim positions. -/
def RunsSpec (words : List (List Char)) (text : List Char) :
    ℕ → List ℕ → List (List Char) → Prop
  | _, [], phrases => phrases = []
  | i, L :: rs, phrases =>
      ∃ p ps j, phrases = p :: ps ∧ i ≤ j ∧ 0 < L ∧ j + L ≤ words.length ∧
        p = joinSp ((words.drop j).take L) ∧ charsContains text p = true ∧
        RunsSpec words text (j + L) rs ps

/-- The verdict `validate` computes for an item string, a function of the
string alone (besides the fixed plaintext and threshold). -/
def itemVerdict (plaintext : List Char) (threshold : ℚ) (k : List Char) : Verdict :=
  verdictOf (scoreItem k plaintext (1 / 2)).1 (scoreItem k plaintext (1 / 2)).2 threshold

/-- State invariant: any key found in a bucket sits in the bucket of the
verdict determined by that key. -/
def GoodState (p : List Char) (th : ℚ) (st : VState) : Prop :=
  ∀ (s : Subject) (v : Verdict) (k : List Char),
    k ∈ dictKeys (st.report s v) → v = itemVerdict p th k

/-- Input for the C5 witness: one claim `"a"` under `injuries`. -/
def c5Input : Subject → List PyVal
  | .injuries => [.pystr ['a']]
  | .treatments => []

/-- Input for the C4 witness: two distinct claims under `injuries`. -/
def c4wInput : Subject → List PyVal
  | .injuries => [.pystr ['a'], .pystr ['b']]
  | .treatments => []

/-- Input for the C4 counterexample: the same claim string `"a"` twice under
`injuries`. -/
def dupInput : Subject → List PyVal
  | .injuries => [.pystr ['a'], .pystr ['a']]
  | .treatments => []

/-- Input for the C6 counterexample: a claims list containing the integer
`5` instead of a string — not a list of strings. -/
def badInput : Subject → List PyVal
  | .injuries => [.pyint 5]
  | .treatments => []

/-- Input for the C7 counterexample and witness: one claim `"a"` under
`injuries`, run with an out-of-range threshold. -/
def c7Input : Subject → List PyVal
  | .injuries => [.pystr ['a']]
  | .treatments => []

/-! ## Lemmas about `findRun` -/

/-- A successful `findRun` search returns a positive length bounded by the
largest candidate, together with precisely the joined phrase of the
corresponding token slice, which is contained in the text. -/
theorem findRun_some {words : List (List Char)} {text : List Char} {i : ℕ} :
    ∀ {Lmax L : ℕ} {p : List Char}, findRun words text i Lmax = some (L, p) →
      0 < L ∧ L ≤ Lmax ∧ p = joinSp ((words.drop i).take L) ∧
        charsContains text p = true := by
  intro Lmax
  induction Lmax with
  | zero => intro L p h; simp [findRun] at h
  | succ m ih =>
      intro L p h
      rw [findRun] at h
      by_cases hc :
          charsContains text (joinSp ((words.drop i).take (m + 1))) = true
      · rw [if_pos hc] at h
        simp only [Option.some.injEq, Prod.mk.injEq] at h
        obtain ⟨hL, hp⟩ := h
        subst hL; subst hp
        exact ⟨Nat.succ_pos m, le_refl _, rfl, hc⟩
      · rw [if_neg hc] at h
        obtain ⟨h1, h2, h3, h4⟩ := ih h
        exact ⟨h1, Nat.le_succ_of_le h2, h3, h4⟩

/-- `findRun` computes the greatest matching candidate length: it agrees with
`Nat.findGreatest` over the predicate "length `L ≥ 1` whose phrase is a
substring of the text". -/
theorem findRun_eq_findGreatest (words : List (List Char)) (text : List Char) (i : ℕ) :
    ∀ Lmax : ℕ,
      findRun words text i Lmax =
        (if Nat.findGreatest
              (fun L => 0 < L ∧
                charsContains text (joinSp ((words.drop i).take L)) = true) Lmax = 0
          then none
          else some
            (Nat.findGreatest
              (fun L => 0 < L ∧
                charsContains text (joinSp ((words.drop i).take L)) = true) Lmax,
             joinSp ((words.drop i).take
              (Nat.findGreatest
                (fun L => 0 < L ∧
                  charsContains text (joinSp ((words.drop i).take L)) = true) Lmax)))) := by
  intro Lmax
  induction Lmax with
  | zero => simp [findRun, Nat.findGreatest_zero]
  | succ m ih =>
      by_cases hc :
          charsContains text (joinSp ((words.drop i).take (m + 1))) = true
      · have hP : 0 < m + 1 ∧
            charsContains text (joinSp ((words.drop i).take (m + 1))) = true :=
          ⟨Nat.succ_pos m, hc⟩
        rw [findRun, if_pos hc, Nat.findGreatest_succ, if_pos hP,
          if_neg (Nat.succ_ne_zero m)]
      · have hP : ¬(0 < m + 1 ∧
            charsContains text (joinSp ((words.drop i).take (m + 1))) = true) :=
          fun hP => hc hP.2
        rw [findRun, if_neg hc, Nat.findGreatest_succ, if_neg hP, ih]

/-! ## Lemmas about `matchAux`: fuel adequacy and structural invariants -/

/-- With no fuel left the loop returns nothing. -/
theorem matchAux_zero (words : List (List Char)) (text : List Char) (i : ℕ) :
    matchAux words text 0 i = ([], []) := rfl

/-- Loop step, exhausted case: `i` beyond the last token position. -/
theorem matchAux_stop (words : List (List Char)) (text : List Char) {i : ℕ}
    (fuel : ℕ) (hi : ¬i < words.length) :
    matchAux words text (fuel + 1) i = ([], []) := by
  rw [matchAux, if_neg hi]

/-- Loop step, skip case: no candidate length matches at position `i`. -/
theorem matchAux_skip (words : List (List Char)) (text : List Char) {i : ℕ}
    (fuel : ℕ) (hi : i < words.length)
    (hfr : findRun words text i (words.length - i) = none) :
    matchAux words text (fuel + 1) i = matchAux words text fuel (i + 1) := by
  rw [matchAux, if_pos hi, hfr]

/-- Loop step, record case: the greedy search found a run at position `i`. -/
theorem matchAux_found (words : List (List Char)) (text : List Char) {i L : ℕ}
    {p : List Char} (fuel : ℕ) (hi : i < words.length)
    (hfr : findRun words text i (words.length - i) = some (L, p)) :
    matchAux words text (fuel + 1) i =
      (L :: (matchAux words text fuel (i + L)).1,
       p :: (matchAux words text fuel (i + L)).2) := by
  rw [matchAux, if_pos hi, hfr]

/-- Once the fuel covers the remaining token positions, adding more fuel does
not change the result: the fuel convention of `matchAux` is sound. -/
theorem matchAux_succ_eq (words : List (List Char)) (text : List Char) :
    ∀ fuel i, words.length ≤ fuel + i →
      matchAux words text (fuel + 1) i = matchAux words text fuel i := by
  intro fuel
  induction fuel with
  | zero =>
      intro i h
      have hi : ¬i < words.length := by omega
      rw [matchAux_stop words text 0 hi, matchAux_zero]
  | succ f ih =>
      intro i h
      by_cases hi : i < words.length
      · rcases hfr : findRun words text i (words.length - i) with _ | ⟨L, p⟩
        · rw [matchAux_skip words text (f + 1) hi hfr, matchAux_skip words text f hi hfr]
          exact ih (i + 1) (by omega)
        · have hpos := (findRun_some hfr).1
          rw [matchAux_found words text (f + 1) hi hfr, matchAux_found words text f hi hfr,
            ih (i + L) (by omega)]
      · rw [matchAux_stop words text (f + 1) hi, matchAux_stop words text f hi]

/-- Fuel adequacy: any fuel at least `words.length - i` computes the same
result as the exact fuel, so `matchRuns` (fuel `words.length`, start `0`)
faithfully models the unbounded `while` loop of `_score_item`. -/
theorem matchAux_fuel_adequate (words : List (List Char)) (text : List Char) :
    ∀ fuel i, words.length - i ≤ fuel →
      matchAux words text fuel i = matchAux words text (words.length - i) i := by
  intro fuel i h
  obtain ⟨j, rfl⟩ := Nat.exists_eq_add_of_le h
  clear h
  induction j with
  | zero => rfl
  | succ k ih =>
      have hs : words.length - i + (k + 1) = (words.length - i + k) + 1 := by omega
      rw [hs, matchAux_succ_eq words text (words.length - i + k) i (by omega), ih]

/-- If a run list satisfies the shape invariant from position `i`, it also
satisfies it from any earlier position. -/
theorem runsSpec_mono {words : List (List Char)} {text : List Char} {i i' : ℕ}
    (h : i' ≤ i) :
    ∀ {rs : List ℕ} {ps : List (List Char)},
      RunsSpec words text i rs ps → RunsSpec words text i' rs ps := by
  intro rs ps hr
  cases rs with
  | nil => exact hr
  | cons L rs =>
      obtain ⟨p, ps', j, h1, h2, rest⟩ := hr
      exact ⟨p, ps', j, h1, le_trans h h2, rest⟩

/-- The matcher loop from position `i` produces runs and phrases satisfying
the shape invariant `RunsSpec` from `i`. -/
theorem matchAux_runsSpec (words : List (List Char)) (text : List Char) :
    ∀ fuel i,
      RunsSpec words text i (matchAux words text fuel i).1 (matchAux words text fuel i).2 := by
  intro fuel
  induction fuel with
  | zero => intro i; rw [matchAux_zero]; rfl
  | succ f ih =>
      intro i
      by_cases hi : i < words.length
      · rcases hfr : findRun words text i (words.length - i) with _ | ⟨L, p⟩
        · rw [matchAux_skip words text f hi hfr]
          exact runsSpec_mono (Nat.le_succ i) (ih (i + 1))
        · obtain ⟨hpos, hle, hphrase, hcont⟩ := findRun_some hfr
          rw [matchAux_found words text f hi hfr]
          exact ⟨p, _, i, rfl, le_refl i, hpos, by omega, hphrase, hcont, ih (i + L)⟩
      · rw [matchAux_stop words text f hi]; rfl

/-- The run lengths found from position `i` total at most the number of
remaining token positions. -/
theorem matchAux_sum_le (words : List (List Char)) (text : List Char) :
    ∀ fuel i, ((matchAux words text fuel i).1).sum ≤ words.length - i := by
  intro fuel
  induction fuel with
  | zero => intro i; rw [matchAux_zero]; simp
  | succ f ih =>
      intro i
      by_cases hi : i < words.length
      · rcases hfr : findRun words text i (words.length - i) with _ | ⟨L, p⟩
        · rw [matchAux_skip words text f hi hfr]
          have := ih (i + 1)
          omega
        · obtain ⟨hpos, hle, -, -⟩ := findRun_some hfr
          rw [matchAux_found words text f hi hfr]
          have := ih (i + L)
          simp only [List.sum_cons]
          omega
      · rw [matchAux_stop words text f hi]; simp

/-- Exactly one phrase is recorded per run. -/
theorem matchAux_length (words : List (List Char)) (text : List Char) :
    ∀ fuel i, ((matchAux words text fuel i).2).length = ((matchAux words text fuel i).1).length := by
  intro fuel
  induction fuel with
  | zero => intro i; rw [matchAux_zero]; rfl
  | succ f ih =>
      intro i
      by_cases hi : i < words.length
      · rcases hfr : findRun words text i (words.length - i) with _ | ⟨L, p⟩
        · rw [matchAux_skip words text f hi hfr]
          exact ih (i + 1)
        · rw [matchAux_found words text f hi hfr]
          simp only [List.length_cons, ih (i + L)]
      · rw [matchAux_stop words text f hi]; rfl

/-- The source matcher loop coincides with the spec-side greedy loop. -/
theorem matchAux_eq_specAux (words : List (List Char)) (text : List Char) :
    ∀ fuel i, matchAux words text fuel i = specAux words text fuel i := by
  intro fuel
  induction fuel with
  | zero => intro i; rw [matchAux_zero, specAux]
  | succ f ih =>
      intro i
      by_cases hi : i < words.length
      · by_cases hL : specStep words text i = 0
        · have hfr : findRun words text i (words.length - i) = none := by
            rw [findRun_eq_findGreatest]
            exact if_pos hL
          rw [matchAux_skip words text f hi hfr, specAux, if_pos hi]
          simp only [hL, if_pos rfl]
          exact ih (i + 1)
        · have hfr : findRun words text i (words.length - i) =
              some (specStep words text i,
                joinSp ((words.drop i).take (specStep words text i))) := by
            rw [findRun_eq_findGreatest]
            exact if_neg hL
          rw [matchAux_found words text f hi hfr, specAux, if_pos hi]
          simp only [if_neg hL, ih]
      · rw [matchAux_stop words text f hi, specAux, if_neg hi]

/-! ## Arithmetic lemmas about the triangular bonus and the scorer -/

/-- The triangular number `r * (r - 1) / 2` (over `ℚ`, with `r` a token
count) is nonnegative. -/
theorem triQ_nonneg (r : ℕ) : 0 ≤ (r : ℚ) * ((r : ℚ) - 1) / 2 := by
  rcases Nat.eq_zero_or_pos r with h | h
  · subst h; norm_num
  · have h1 : (1 : ℚ) ≤ (r : ℚ) := by exact_mod_cast h
    nlinarith

/-- Triangular superadditivity: merging two runs never loses bonus. -/
theorem triQ_superadd (a b : ℕ) :
    (a : ℚ) * ((a : ℚ) - 1) / 2 + (b : ℚ) * ((b : ℚ) - 1) / 2 ≤
      ((a + b : ℕ) : ℚ) * (((a + b : ℕ) : ℚ) - 1) / 2 := by
  have ha : (0 : ℚ) ≤ (a : ℚ) := Nat.cast_nonneg a
  have hb : (0 : ℚ) ≤ (b : ℚ) := Nat.cast_nonneg b
  push_cast
  nlinarith [mul_nonneg ha hb]

/-- Triangular monotonicity. -/
theorem triQ_mono {a b : ℕ} (h : a ≤ b) :
    (a : ℚ) * ((a : ℚ) - 1) / 2 ≤ (b : ℚ) * ((b : ℚ) - 1) / 2 := by
  rcases Nat.eq_zero_or_pos b with hb | hb
  · have ha : a = 0 := by omega
    subst ha; subst hb
    exact le_refl _
  · have h1 : (1 : ℚ) ≤ (b : ℚ) := by exact_mod_cast hb
    have hab : (a : ℚ) ≤ (b : ℚ) := by exact_mod_cast h
    have ha : (0 : ℚ) ≤ (a : ℚ) := Nat.cast_nonneg a
    nlinarith

/-- The total triangular bonus of a run decomposition is at most the
triangular bonus of the merged single run. -/
theorem sumTri_le (runs : List ℕ) :
    (runs.map fun r : ℕ => (r : ℚ) * ((r : ℚ) - 1) / 2).sum ≤
      ((runs.sum : ℕ) : ℚ) * (((runs.sum : ℕ) : ℚ) - 1) / 2 := by
  induction runs with
  | nil => norm_num
  | cons r rs ih =>
      simp only [List.map_cons, List.sum_cons]
      calc (r : ℚ) * ((r : ℚ) - 1) / 2 + (rs.map fun x : ℕ => (x : ℚ) * ((x : ℚ) - 1) / 2).sum
          ≤ (r : ℚ) * ((r : ℚ) - 1) / 2 +
              ((rs.sum : ℕ) : ℚ) * (((rs.sum : ℕ) : ℚ) - 1) / 2 := by linarith
        _ ≤ ((r + rs.sum : ℕ) : ℚ) * (((r + rs.sum : ℕ) : ℚ) - 1) / 2 :=
              triQ_superadd r rs.sum
        _ = (((r :: rs).sum : ℕ) : ℚ) * ((((r :: rs).sum : ℕ) : ℚ) - 1) / 2 := by
              simp

/-- The base part of the raw score is the cast run total. -/
theorem baseSum_eq (runs : List ℕ) :
    (runs.map fun r : ℕ => (r : ℚ)).sum = ((runs.sum : ℕ) : ℚ) := by
  induction runs with
  | nil => simp
  | cons r rs ih =>
      simp only [List.map_cons, List.sum_cons, ih]
      push_cast
      ring

/-- The total triangular bonus of any run decomposition is nonnegative. -/
theorem sumTri_nonneg (runs : List ℕ) :
    (0 : ℚ) ≤ (runs.map fun r : ℕ => (r : ℚ) * ((r : ℚ) - 1) / 2).sum := by
  induction runs with
  | nil => simp
  | cons r rs ih =>
      simp only [List.map_cons, List.sum_cons]
      have := triQ_nonneg r
      linarith

/-- The bonus factor distributes out of the bonus sum. -/
theorem bonusSum_eq (runs : List ℕ) (bf : ℚ) :
    (runs.map fun r : ℕ => ((r : ℚ) * ((r : ℚ) - 1) / 2) * bf).sum =
      (runs.map fun r : ℕ => (r : ℚ) * ((r : ℚ) - 1) / 2).sum * bf := by
  induction runs with
  | nil => simp
  | cons r rs ih => simp [ih, add_mul]

/-- `rawScore` splits as base plus bonus, with the base the cast token total
and the bonus `bf` times the total triangular bonus. -/
theorem rawScore_eq (runs : List ℕ) (bf : ℚ) :
    rawScore runs bf =
      ((runs.sum : ℕ) : ℚ) + (runs.map fun r : ℕ => (r : ℚ) * ((r : ℚ) - 1) / 2).sum * bf := by
  rw [rawScore, baseSum_eq, bonusSum_eq]

/-- The raw score of the empty decomposition is zero. -/
theorem rawScore_nil (bf : ℚ) : rawScore [] bf = 0 := by simp [rawScore]

/-- With a nonnegative bonus factor, raw scores are nonnegative. -/
theorem rawScore_nonneg (runs : List ℕ) {bf : ℚ} (hbf : 0 ≤ bf) :
    0 ≤ rawScore runs bf := by
  rw [rawScore_eq]
  have h1 : (0 : ℚ) ≤ ((runs.sum : ℕ) : ℚ) := Nat.cast_nonneg _
  have h2 := sumTri_nonneg runs
  nlinarith

/-- Core scoring bound: any run decomposition totalling at most `n` tokens
raw-scores at most the theoretical maximum for `n` tokens. -/
theorem rawScore_le_maxScore {runs : List ℕ} {n : ℕ} (h : runs.sum ≤ n)
    {bf : ℚ} (hbf : 0 ≤ bf) : rawScore runs bf ≤ maxScore n bf := by
  rw [rawScore_eq, maxScore]
  have hsum : ((runs.sum : ℕ) : ℚ) ≤ (n : ℚ) := by exact_mod_cast h
  have htri : (runs.map fun r : ℕ => (r : ℚ) * ((r : ℚ) - 1) / 2).sum ≤
      (n : ℚ) * ((n : ℚ) - 1) / 2 :=
    le_trans (sumTri_le runs) (triQ_mono h)
  have hbonus : (runs.map fun r : ℕ => (r : ℚ) * ((r : ℚ) - 1) / 2).sum * bf ≤
      (n : ℚ) * ((n : ℚ) - 1) / 2 * bf :=
    mul_le_mul_of_nonneg_right htri hbf
  linarith

/-- For at least one token and a nonnegative bonus factor the theoretical
maximum is positive (so `max_score > 0` holds in `_score_item`). -/
theorem maxScore_pos {n : ℕ} (hn : 1 ≤ n) {bf : ℚ} (hbf : 0 ≤ bf) :
    0 < maxScore n bf := by
  rw [maxScore]
  have h1 : (1 : ℚ) ≤ (n : ℚ) := by exact_mod_cast hn
  have h2 : (0 : ℚ) ≤ (n : ℚ) * ((n : ℚ) - 1) / 2 * bf :=
    mul_nonneg (triQ_nonneg n) hbf
  linarith

/-- The clamp is the identity on `[0, 1]`. -/
theorem clamp01_of_mem {x : ℚ} (h0 : 0 ≤ x) (h1 : x ≤ 1) : clamp01 x = x := by
  rw [clamp01, min_eq_right h1, max_eq_right h0]

/-- Clamped values never exceed `1`. -/
theorem clamp01_le_one (x : ℚ) : clamp01 x ≤ 1 := by
  rw [clamp01]
  exact max_le (by norm_num) (min_le_left 1 x)

/-- Clamped values are nonnegative. -/
theorem clamp01_nonneg (x : ℚ) : 0 ≤ clamp01 x := by
  rw [clamp01]
  exact le_max_left _ _

/-- The clamp is monotone. -/
theorem clamp01_mono {x y : ℚ} (h : x ≤ y) : clamp01 x ≤ clamp01 y :=
  max_le_max (le_refl 0) (min_le_min (le_refl 1) h)

/-! ## Characterization of `_score_item` -/

/-- On an item with at least one token, `_score_item` returns exactly the
unclamped normalized score together with the matcher's phrases: the
`max_score > 0` guard fires and the clamp is the identity. -/
theorem scoreItem_spec (item plaintext : List Char) {bf : ℚ} (hbf : 0 ≤ bf)
    (h : tokenize (lowerChars item) ≠ []) :
    scoreItem item plaintext bf =
      (rawScore (matchRuns (tokenize (lowerChars item)) (lowerChars plaintext)).1 bf /
         maxScore (tokenize (lowerChars item)).length bf,
       (matchRuns (tokenize (lowerChars item)) (lowerChars plaintext)).2) := by
  have hne : (tokenize (lowerChars item)).isEmpty = false := by
    cases hw : tokenize (lowerChars item) with
    | nil => exact absurd hw h
    | cons w ws => rfl
  have hn : 1 ≤ (tokenize (lowerChars item)).length :=
    List.length_pos.mpr h
  have hmax := maxScore_pos hn hbf
  have hsum :
      (matchRuns (tokenize (lowerChars item)) (lowerChars plaintext)).1.sum ≤
        (tokenize (lowerChars item)).length := by
    have := matchAux_sum_le (tokenize (lowerChars item)) (lowerChars plaintext)
      (tokenize (lowerChars item)).length 0
    simpa [matchRuns] using this
  have hraw0 := rawScore_nonneg
    (matchRuns (tokenize (lowerChars item)) (lowerChars plaintext)).1 hbf
  have hrawle := rawScore_le_maxScore hsum hbf
  simp only [scoreItem, hne, Bool.false_eq_true, if_false, if_pos hmax]
  rw [clamp01_of_mem (div_nonneg hraw0 hmax.le) ((div_le_one hmax).mpr hrawle)]

/-- The matched-phrase component of `_score_item` is the matcher's phrase
list whenever the item has tokens (for any bonus factor). -/
theorem scoreItem_snd (item plaintext : List Char) (bf : ℚ)
    (h : tokenize (lowerChars item) ≠ []) :
    (scoreItem item plaintext bf).2 =
      (matchRuns (tokenize (lowerChars item)) (lowerChars plaintext)).2 := by
  have hne : (tokenize (lowerChars item)).isEmpty = false := by
    cases hw : tokenize (lowerChars item) with
    | nil => exact absurd hw h
    | cons w ws => rfl
  simp only [scoreItem, hne, Bool.false_eq_true, if_false]

/-- An item with no tokens scores `(0.0, [])`. -/
theorem scoreItem_nil (item plaintext : List Char) (bf : ℚ)
    (h : tokenize (lowerChars item) = []) :
    scoreItem item plaintext bf = (0, []) := by
  simp only [scoreItem, h, List.isEmpty_nil, if_true]

/-- Matching an empty token list yields no runs and no phrases. -/
theorem matchRuns_nil (text : List Char) : matchRuns [] text = ([], []) := rfl

/-- The confidence component of `_score_item` is always in `[0, 1]`. -/
theorem scoreItem_confidence_mem (item plaintext : List Char) (bf : ℚ) :
    0 ≤ (scoreItem item plaintext bf).1 ∧ (scoreItem item plaintext bf).1 ≤ 1 := by
  by_cases h : (tokenize (lowerChars item)).isEmpty = true
  · simp only [scoreItem, h, if_true]
    norm_num
  · simp only [scoreItem, h, if_false]
    exact ⟨clamp01_nonneg _, clamp01_le_one _⟩

/-! ## Claim theorems about the matcher and the scorer -/

/-- Claim C1: for every claim token sequence and every source text, the
matcher computes runs by the greedy longest-first left-to-right single pass
described in §4.2 of the spec: at each position `i` it takes the largest
`L ≤ n - i` whose single-space-joined phrase `words[i : i + L]` occurs as a
literal substring of the text (the lower-cased source, as passed by
`_score_item`), records a run of that length and phrase and advances by
`L`, otherwise advances by `1` recording nothing; runs are returned in the
order found.  Formally: the source matcher `matchRuns` coincides with the
spec-side greedy matcher `specMatch` on all inputs. -/
theorem C1_matcher_greedy (words : List (List Char)) (text : List Char) :
    matchRuns words text = specMatch words text :=
  matchAux_eq_specAux words text words.length 0

/-- Claim C2: with bonus factor `0.5`, the confidence of a claim with `n ≥ 1`
tokens and matcher runs `r_1..r_k` is
`(Σ r_j + 0.5 · Σ r_j (r_j - 1) / 2) / (n + 0.5 · n (n - 1) / 2)` clamped to
`[0, 1]` (`rawScore` / `maxScore` are literally these expressions), and a
claim tokenizing to zero tokens gets confidence `0.0` and an empty
matched-phrase list. -/
theorem C2_confidence_formula (item plaintext : List Char) :
    scoreItem item plaintext (1 / 2) =
      if tokenize (lowerChars item) = [] then (0, [])
      else
        (clamp01
          (rawScore (matchRuns (tokenize (lowerChars item)) (lowerChars plaintext)).1 (1 / 2) /
            maxScore (tokenize (lowerChars item)).length (1 / 2)),
         (matchRuns (tokenize (lowerChars item)) (lowerChars plaintext)).2) := by
  by_cases h : tokenize (lowerChars item) = []
  · rw [if_pos h, scoreItem_nil item plaintext (1 / 2) h]
  · rw [if_neg h, scoreItem_spec item plaintext (by norm_num) h]
    have hn : 1 ≤ (tokenize (lowerChars item)).length := List.length_pos.mpr h
    have hmax := maxScore_pos hn (by norm_num : (0 : ℚ) ≤ 1 / 2)
    have hsum :
        (matchRuns (tokenize (lowerChars item)) (lowerChars plaintext)).1.sum ≤
          (tokenize (lowerChars item)).length := by
      have := matchAux_sum_le (tokenize (lowerChars item)) (lowerChars plaintext)
        (tokenize (lowerChars item)).length 0
      simpa [matchRuns] using this
    have hraw0 := rawScore_nonneg
      (matchRuns (tokenize (lowerChars item)) (lowerChars plaintext)).1
      (by norm_num : (0 : ℚ) ≤ 1 / 2)
    have hrawle := rawScore_le_maxScore hsum (by norm_num : (0 : ℚ) ≤ 1 / 2)
    rw [clamp01_of_mem (div_nonneg hraw0 hmax.le) ((div_le_one hmax).mpr hrawle)]

/-- Claim C9: any run decomposition with lengths totalling at most `n`
(in particular every decomposition the matcher can produce) raw-scores at
most the theoretical maximum `n + 0.5 · n (n - 1) / 2`, computed exactly
over `ℚ`; hence for every claim with at least one token the clamp is the
identity and the confidence equals raw over max exactly. -/
theorem C9_clamp_is_identity :
    (∀ (n : ℕ) (runs : List ℕ), runs.sum ≤ n →
      rawScore runs (1 / 2) ≤ maxScore n (1 / 2)) ∧
    (∀ item plaintext : List Char, tokenize (lowerChars item) ≠ [] →
      (scoreItem item plaintext (1 / 2)).1 =
        rawScore (matchRuns (tokenize (lowerChars item)) (lowerChars plaintext)).1 (1 / 2) /
          maxScore (tokenize (lowerChars item)).length (1 / 2)) := by
  constructor
  · intro n runs h
    exact rawScore_le_maxScore h (by norm_num)
  · intro item plaintext h
    rw [scoreItem_spec item plaintext (by norm_num) h]

/-- Witness for C9: the run decomposition `[2]` of a three-token claim obeys
the bound, and on the one-token claim `"a"` against source `"a"` the
confidence is the exact unclamped quotient. -/
theorem C9_clamp_is_identity_witness :
    rawScore [2] (1 / 2) ≤ maxScore 3 (1 / 2) ∧
    (scoreItem ['a'] ['a'] (1 / 2)).1 =
      rawScore (matchRuns (tokenize (lowerChars ['a'])) (lowerChars ['a'])).1 (1 / 2) /
        maxScore (tokenize (lowerChars ['a'])).length (1 / 2) :=
  ⟨C9_clamp_is_identity.1 3 [2] (by decide),
   C9_clamp_is_identity.2 ['a'] ['a'] (by decide)⟩

/-- The matched-phrase list of `_score_item` has exactly one entry per
recorded run. -/
theorem scoreItem_phrases_length (item plaintext : List Char) (bf : ℚ) :
    (scoreItem item plaintext bf).2.length =
      (matchRuns (tokenize (lowerChars item)) (lowerChars plaintext)).1.length := by
  by_cases h : tokenize (lowerChars item) = []
  · rw [scoreItem_nil item plaintext bf h, h, matchRuns_nil]
    rfl
  · rw [scoreItem_snd item plaintext bf h]
    exact matchAux_length _ _ _ 0

/-- Claim C10: for every claim and source text, the scorer's matched-phrase
list pairs up one-to-one with the recorded runs, in left-to-right order of
the claim positions where the runs were found, and each phrase is the
single-space join of a contiguous slice of the claim's lower-cased tokens
and a literal substring of the lower-cased source text (`RunsSpec` states
exactly this shape). -/
theorem C10_phrases_shape (item plaintext : List Char) (bf : ℚ) :
    RunsSpec (tokenize (lowerChars item)) (lowerChars plaintext) 0
      (matchRuns (tokenize (lowerChars item)) (lowerChars plaintext)).1
      (scoreItem item plaintext bf).2 ∧
    (scoreItem item plaintext bf).2.length =
      (matchRuns (tokenize (lowerChars item)) (lowerChars plaintext)).1.length := by
  refine ⟨?_, scoreItem_phrases_length item plaintext bf⟩
  by_cases h : tokenize (lowerChars item) = []
  · rw [scoreItem_nil item plaintext bf h, h, matchRuns_nil]
    rfl
  · rw [scoreItem_snd item plaintext bf h]
    exact matchAux_runsSpec _ _ _ 0

/-- The matched-phrase list of `_score_item` is empty exactly when the run
list of the matcher is empty. -/
theorem scoreItem_snd_eq_nil_iff (item plaintext : List Char) (bf : ℚ) :
    ((scoreItem item plaintext bf).2 = [] ↔
      (matchRuns (tokenize (lowerChars item)) (lowerChars plaintext)).1 = []) := by
  have hlen := scoreItem_phrases_length item plaintext bf
  constructor
  · intro h
    have : (matchRuns (tokenize (lowerChars item)) (lowerChars plaintext)).1.length = 0 := by
      rw [← hlen, h, List.length_nil]
    exact List.length_eq_zero.mp this
  · intro h
    have : (scoreItem item plaintext bf).2.length = 0 := by
      rw [hlen, h, List.length_nil]
    exact List.length_eq_zero.mp this

/-- Claim C3: for every claim processed by verification (whose verdict
`validate` computes as `verdictOf confidence matches threshold` on the
output of `_score_item` with bonus factor `0.5`), the verdict is `verified`
iff the confidence is at least the threshold and the matcher recorded at
least one run; in every other case it is `unverified`. -/
theorem C3_verdict_rule (item plaintext : List Char) (threshold : ℚ) :
    (verdictOf (scoreItem item plaintext (1 / 2)).1 (scoreItem item plaintext (1 / 2)).2
        threshold = Verdict.verified ↔
      (threshold ≤ (scoreItem item plaintext (1 / 2)).1 ∧
        (matchRuns (tokenize (lowerChars item)) (lowerChars plaintext)).1 ≠ [])) ∧
    (verdictOf (scoreItem item plaintext (1 / 2)).1 (scoreItem item plaintext (1 / 2)).2
        threshold = Verdict.unverified ↔
      ¬(threshold ≤ (scoreItem item plaintext (1 / 2)).1 ∧
        (matchRuns (tokenize (lowerChars item)) (lowerChars plaintext)).1 ≠ [])) := by
  have key := scoreItem_snd_eq_nil_iff item plaintext (1 / 2)
  rw [verdictOf]
  by_cases hc : threshold ≤ (scoreItem item plaintext (1 / 2)).1 ∧
      (scoreItem item plaintext (1 / 2)).2 ≠ []
  · rw [if_pos hc]
    constructor
    · exact ⟨fun _ => ⟨hc.1, fun hr => hc.2 (key.mpr hr)⟩, fun _ => rfl⟩
    · exact ⟨fun h => absurd h (by simp),
        fun h => absurd ⟨hc.1, fun hr => hc.2 (key.mpr hr)⟩ h⟩
  · rw [if_neg hc]
    constructor
    · exact ⟨fun h => absurd h (by simp),
        fun h => absurd ⟨h.1, fun hp => h.2 (key.mp hp)⟩ hc⟩
    · exact ⟨fun _ h => hc ⟨h.1, fun hp => h.2 (key.mp hp)⟩, fun _ => rfl⟩

/-! ## Claim C8: monotonicity properties of the scorer -/

/-- Appending one further matched run only raises the raw score. -/
theorem rawScore_cons (r : ℕ) (runs : List ℕ) (bf : ℚ) :
    rawScore (r :: runs) bf =
      ((r : ℚ) + ((r : ℚ) * ((r : ℚ) - 1) / 2) * bf) + rawScore runs bf := by
  simp only [rawScore, List.map_cons, List.sum_cons]
  ring

/-- A single full run realizes exactly the theoretical maximum. -/
theorem rawScore_single (n : ℕ) (bf : ℚ) : rawScore [n] bf = maxScore n bf := by
  simp only [rawScore, maxScore, List.map_cons, List.map_nil, List.sum_cons,
    List.sum_nil]
  ring

/-- The theoretical maximum is nonnegative for a nonnegative bonus factor. -/
theorem maxScore_nonneg (n : ℕ) {bf : ℚ} (hbf : 0 ≤ bf) : 0 ≤ maxScore n bf := by
  rw [maxScore]
  have := mul_nonneg (triQ_nonneg n) hbf
  have := Nat.cast_nonneg (α := ℚ) n
  linarith

/-- Dividing by the (nonnegative) maximum and clamping preserves raw-score
comparisons. -/
theorem confQuot_mono {a b : ℚ} (n : ℕ) {bf : ℚ} (hbf : 0 ≤ bf) (h : a ≤ b) :
    clamp01 (a / maxScore n bf) ≤ clamp01 (b / maxScore n bf) := by
  rcases eq_or_lt_of_le (maxScore_nonneg n hbf) with hz | hpos
  · rw [← hz, div_zero, div_zero]
  · exact clamp01_mono ((div_le_div_iff_of_pos_right hpos).mpr h)

/-- Counterexample to claim C8 as stated: for the fixed four-token claim
`"a b c d"`, the source `"a x b x c x d"` yields four single-token runs
(four matched tokens) while the source `"a b c"` yields one run of three
(three matched tokens) — yet the confidence of the former, `4/7`, is
strictly below the confidence of the latter, `9/14`.  So the confidence is
not monotonically non-decreasing in the total matched-token count. -/
theorem C8_counterexample :
    (matchRuns (tokenize (lowerChars ['a', ' ', 'b', ' ', 'c', ' ', 'd']))
        (lowerChars ['a', ' ', 'b', ' ', 'c'])).1.sum <
      (matchRuns (tokenize (lowerChars ['a', ' ', 'b', ' ', 'c', ' ', 'd']))
        (lowerChars ['a', ' ', 'x', ' ', 'b', ' ', 'x', ' ', 'c', ' ', 'x', ' ', 'd'])).1.sum ∧
    (scoreItem ['a', ' ', 'b', ' ', 'c', ' ', 'd']
        ['a', ' ', 'x', ' ', 'b', ' ', 'x', ' ', 'c', ' ', 'x', ' ', 'd'] (1 / 2)).1 <
      (scoreItem ['a', ' ', 'b', ' ', 'c', ' ', 'd'] ['a', ' ', 'b', ' ', 'c'] (1 / 2)).1 := by
  constructor
  · decide
  · rw [scoreItem_spec _ _ (by norm_num) (by decide),
      scoreItem_spec _ _ (by norm_num) (by decide)]
    have h1 : (matchRuns (tokenize (lowerChars ['a', ' ', 'b', ' ', 'c', ' ', 'd']))
        (lowerChars ['a', ' ', 'b', ' ', 'c'])).1 = [3] := by decide
    have h2 : (matchRuns (tokenize (lowerChars ['a', ' ', 'b', ' ', 'c', ' ', 'd']))
        (lowerChars ['a', ' ', 'x', ' ', 'b', ' ', 'x', ' ', 'c', ' ', 'x', ' ', 'd'])).1 =
        [1, 1, 1, 1] := by decide
    have h3 : (tokenize (lowerChars ['a', ' ', 'b', ' ', 'c', ' ', 'd'])).length = 4 := by
      decide
    rw [h1, h2, h3]
    norm_num [rawScore, maxScore]

/-- Claim C8 amended: for a fixed claim token count `n` (and nonnegative
bonus factor), the clamped confidence is monotonically non-decreasing under
*adding a matched run*, and concentrating the same number of matched tokens
into one single run never lowers the score; a claim whose tokens form one
single run of length `n` with `n ≥ 2` has confidence exactly `1.0`.  (The
counterexample above shows the score is not monotone in the bare total
matched-token count.) -/
theorem C8_amended_monotonicity :
    (∀ (n r : ℕ) (bf : ℚ) (runs : List ℕ), 0 ≤ bf →
      clamp01 (rawScore runs bf / maxScore n bf) ≤
        clamp01 (rawScore (r :: runs) bf / maxScore n bf)) ∧
    (∀ (n : ℕ) (bf : ℚ) (parts : List ℕ), 0 ≤ bf →
      clamp01 (rawScore parts bf / maxScore n bf) ≤
        clamp01 (rawScore [parts.sum] bf / maxScore n bf)) ∧
    (∀ item plaintext : List Char, 2 ≤ (tokenize (lowerChars item)).length →
      (matchRuns (tokenize (lowerChars item)) (lowerChars plaintext)).1 =
        [(tokenize (lowerChars item)).length] →
      (scoreItem item plaintext (1 / 2)).1 = 1) := by
  refine ⟨?_, ?_, ?_⟩
  · intro n r bf runs hbf
    refine confQuot_mono n hbf ?_
    rw [rawScore_cons]
    have h1 : (0 : ℚ) ≤ (r : ℚ) := Nat.cast_nonneg r
    have h2 : (0 : ℚ) ≤ ((r : ℚ) * ((r : ℚ) - 1) / 2) * bf :=
      mul_nonneg (triQ_nonneg r) hbf
    linarith
  · intro n bf parts hbf
    refine confQuot_mono n hbf ?_
    rw [rawScore_single, rawScore_eq, maxScore]
    have htri : (parts.map fun r : ℕ => (r : ℚ) * ((r : ℚ) - 1) / 2).sum * bf ≤
        ((parts.sum : ℕ) : ℚ) * (((parts.sum : ℕ) : ℚ) - 1) / 2 * bf :=
      mul_le_mul_of_nonneg_right (sumTri_le parts) hbf
    linarith
  · intro item plaintext hn hruns
    have h : tokenize (lowerChars item) ≠ [] := by
      intro hnil
      rw [hnil] at hn
      simp at hn
    have hn1 : 1 ≤ (tokenize (lowerChars item)).length := le_trans (by norm_num) hn
    have hmax := maxScore_pos hn1 (by norm_num : (0 : ℚ) ≤ 1 / 2)
    rw [scoreItem_spec item plaintext (by norm_num) h, hruns, rawScore_single]
    exact div_self (ne_of_gt hmax)

/-- Witness for the amended C8: concrete instances of all three conjuncts —
adding a run `2` to `[1]` for `n = 4`, merging `[1, 1]` into `[2]` for
`n = 4`, and the two-token claim `"a b"` fully matched against `"a b"`
scoring exactly `1`. -/
theorem C8_amended_monotonicity_witness :
    (clamp01 (rawScore [1] (1 / 2) / maxScore 4 (1 / 2)) ≤
      clamp01 (rawScore (2 :: [1]) (1 / 2) / maxScore 4 (1 / 2))) ∧
    (clamp01 (rawScore [1, 1] (1 / 2) / maxScore 4 (1 / 2)) ≤
      clamp01 (rawScore [([1, 1] : List ℕ).sum] (1 / 2) / maxScore 4 (1 / 2))) ∧
    (scoreItem ['a', ' ', 'b'] ['a', ' ', 'b'] (1 / 2)).1 = 1 :=
  ⟨C8_amended_monotonicity.1 4 2 (1 / 2) [1] one_half_pos.le,
   C8_amended_monotonicity.2.1 4 (1 / 2) [1, 1] one_half_pos.le,
   C8_amended_monotonicity.2.2 ['a', ' ', 'b'] ['a', ' ', 'b'] (by decide) (by decide)⟩

/-! ## The aggregation loop `validate`: dictionary and fold invariants -/

/-- One step of `validate`'s inner loop, on the report component. -/
theorem processItem_report (p : List Char) (th : ℚ) (s : Subject) (st : VState)
    (item : PyVal) (s' : Subject) (v' : Verdict) :
    (processItem p th s st item).report s' v' =
      if s' = s ∧ v' = itemVerdict p th (pyStr item) then
        dictInsert (st.report s' v') (pyStr item) (scoreItem (pyStr item) p (1 / 2))
      else st.report s' v' := rfl

/-- One step of `validate`'s inner loop, on the counters. -/
theorem processItem_counts (p : List Char) (th : ℚ) (s : Subject) (st : VState)
    (item : PyVal) (s' : Subject) (v' : Verdict) :
    (processItem p th s st item).matchCounts s' v' =
      if s' = s ∧ v' = itemVerdict p th (pyStr item) then st.matchCounts s' v' + 1
      else st.matchCounts s' v' := rfl

/-- Key membership after a dict insertion: the old keys plus the new one. -/
theorem mem_dictKeys_insert {α : Type} (d : List (List Char × α)) (k k' : List Char)
    (v : α) : k' ∈ dictKeys (dictInsert d k v) ↔ k' ∈ dictKeys d ∨ k' = k := by
  induction d with
  | nil => simp [dictInsert, dictKeys]
  | cons kv rest ih =>
      obtain ⟨k₀, v₀⟩ := kv
      rw [dictInsert]
      by_cases h : k₀ = k
      · subst h
        rw [if_pos rfl]
        show k' ∈ k₀ :: dictKeys rest ↔ k' ∈ k₀ :: dictKeys rest ∨ k' = k₀
        simp only [List.mem_cons]
        tauto
      · rw [if_neg h]
        show k' ∈ k₀ :: dictKeys (dictInsert rest k v) ↔ k' ∈ k₀ :: dictKeys rest ∨ k' = k
        simp only [List.mem_cons, ih]
        tauto

/-- Inserting a fresh key appends one entry. -/
theorem dictInsert_length_fresh {α : Type} (d : List (List Char × α)) (k : List Char)
    (v : α) (h : k ∉ dictKeys d) : (dictInsert d k v).length = d.length + 1 := by
  induction d with
  | nil => rfl
  | cons kv rest ih =>
      obtain ⟨k₀, v₀⟩ := kv
      simp only [dictKeys, List.map_cons, List.mem_cons] at h
      push_neg at h
      rw [dictInsert, if_neg (fun he => h.1 he.symm), List.length_cons,
        List.length_cons, ih h.2]

/-- Existing keys survive any later insertion. -/
theorem mem_dictKeys_insert_of_mem {α : Type} {d : List (List Char × α)}
    {k' : List Char} (k : List Char) (v : α) (h : k' ∈ dictKeys d) :
    k' ∈ dictKeys (dictInsert d k v) :=
  (mem_dictKeys_insert d k k' v).mpr (Or.inl h)

/-- A key present in some bucket stays present through the inner loop. -/
theorem foldl_report_mem_preserved (p : List Char) (th : ℚ) (s : Subject) :
    ∀ (items : List PyVal) (st : VState) (s' : Subject) (v' : Verdict)
      (k : List Char), k ∈ dictKeys (st.report s' v') →
      k ∈ dictKeys ((items.foldl (processItem p th s) st).report s' v') := by
  intro items
  induction items with
  | nil => intro st s' v' k h; exact h
  | cons item rest ih =>
      intro st s' v' k h
      rw [List.foldl_cons]
      refine ih _ s' v' k ?_
      rw [processItem_report]
      split
      · exact mem_dictKeys_insert_of_mem _ _ h
      · exact h

/-- Every item of the processed list ends up (as its coerced string) in the
bucket of its determined verdict. -/
theorem foldl_report_mem (p : List Char) (th : ℚ) (s : Subject) :
    ∀ (items : List PyVal) (st : VState) (item : PyVal), item ∈ items →
      pyStr item ∈
        dictKeys ((items.foldl (processItem p th s) st).report s
          (itemVerdict p th (pyStr item))) := by
  intro items
  induction items with
  | nil => intro st item h; exact absurd h (List.not_mem_nil item)
  | cons hd rest ih =>
      intro st item h
      rw [List.foldl_cons]
      rcases List.mem_cons.mp h with h | h
      · subst h
        refine foldl_report_mem_preserved p th s rest _ s _ (pyStr item) ?_
        rw [processItem_report, if_pos ⟨rfl, rfl⟩]
        exact (mem_dictKeys_insert _ _ _ _).mpr (Or.inr rfl)
      · exact ih _ item h

/-- The inner loop preserves the verdict-determinacy invariant. -/
theorem foldl_goodState (p : List Char) (th : ℚ) (s : Subject) :
    ∀ (items : List PyVal) (st : VState), GoodState p th st →
      GoodState p th (items.foldl (processItem p th s) st) := by
  intro items
  induction items with
  | nil => intro st h; exact h
  | cons item rest ih =>
      intro st h
      rw [List.foldl_cons]
      refine ih _ ?_
      intro s' v' k hk
      rw [processItem_report] at hk
      by_cases hc : s' = s ∧ v' = itemVerdict p th (pyStr item)
      · rw [if_pos hc] at hk
        rcases (mem_dictKeys_insert _ _ _ _).mp hk with hk | hk
        · exact h s' v' k hk
        · rw [hk]; exact hc.2
      · rw [if_neg hc] at hk
        exact h s' v' k hk

/-- The inner loop for one subject never touches another subject's buckets. -/
theorem foldl_report_other (p : List Char) (th : ℚ) (s : Subject) :
    ∀ (items : List PyVal) (st : VState) (s' : Subject) (v' : Verdict), s' ≠ s →
      (items.foldl (processItem p th s) st).report s' v' = st.report s' v' := by
  intro items
  induction items with
  | nil => intro st s' v' h; rfl
  | cons item rest ih =>
      intro st s' v' h
      rw [List.foldl_cons, ih _ s' v' h, processItem_report,
        if_neg (fun hc => h hc.1)]

/-- The inner loop for one subject never touches another subject's counters. -/
theorem foldl_counts_other (p : List Char) (th : ℚ) (s : Subject) :
    ∀ (items : List PyVal) (st : VState) (s' : Subject) (v' : Verdict), s' ≠ s →
      (items.foldl (processItem p th s) st).matchCounts s' v' = st.matchCounts s' v' := by
  intro items
  induction items with
  | nil => intro st s' v' h; rfl
  | cons item rest ih =>
      intro st s' v' h
      rw [List.foldl_cons, ih _ s' v' h, processItem_counts,
        if_neg (fun hc => h hc.1)]

/-- Per item processed for a subject, exactly one of its two verdict counters
is incremented: their sum grows by the number of items. -/
theorem foldl_counts_total (p : List Char) (th : ℚ) (s : Subject) :
    ∀ (items : List PyVal) (st : VState),
      (items.foldl (processItem p th s) st).matchCounts s Verdict.verified +
        (items.foldl (processItem p th s) st).matchCounts s Verdict.unverified =
      st.matchCounts s Verdict.verified + st.matchCounts s Verdict.unverified +
        items.length := by
  intro items
  induction items with
  | nil => intro st; rfl
  | cons item rest ih =>
      intro st
      rw [List.foldl_cons, ih, List.length_cons]
      rw [processItem_counts, processItem_counts]
      cases hv : itemVerdict p th (pyStr item) with
      | verified =>
          rw [if_pos ⟨rfl, rfl⟩, if_neg (fun hc => Verdict.noConfusion hc.2)]
          omega
      | unverified =>
          rw [if_neg (fun hc => Verdict.noConfusion hc.2), if_pos ⟨rfl, rfl⟩]
          omega

/-- With distinct keys in flight, counters and bucket sizes advance in
lockstep through the inner loop. -/
theorem foldl_countInv (p : List Char) (th : ℚ) (s : Subject) :
    ∀ (items : List PyVal) (st : VState),
      (∀ s' v, st.matchCounts s' v = (st.report s' v).length) →
      (∀ item ∈ items, ∀ v, pyStr item ∉ dictKeys (st.report s v)) →
      (items.map pyStr).Nodup →
      ∀ s' v, (items.foldl (processItem p th s) st).matchCounts s' v =
        ((items.foldl (processItem p th s) st).report s' v).length := by
  intro items
  induction items with
  | nil => intro st hInv _ _ s' v; exact hInv s' v
  | cons item rest ih =>
      intro st hInv hfresh hnd s' v
      rw [List.foldl_cons]
      rw [List.map_cons, List.nodup_cons] at hnd
      refine ih _ ?_ ?_ hnd.2 s' v
      · intro s₁ v₁
        rw [processItem_counts, processItem_report]
        by_cases hc : s₁ = s ∧ v₁ = itemVerdict p th (pyStr item)
        · obtain ⟨rfl, rfl⟩ := hc
          rw [if_pos ⟨rfl, rfl⟩, if_pos ⟨rfl, rfl⟩,
            dictInsert_length_fresh _ _ _ (hfresh item (List.mem_cons_self item rest) _),
            hInv]
        · rw [if_neg hc, if_neg hc]
          exact hInv s₁ v₁
      · intro item' hmem v₁
        rw [processItem_report]
        by_cases hc : s = s ∧ v₁ = itemVerdict p th (pyStr item)
        · rw [if_pos hc]
          intro hk
          rcases (mem_dictKeys_insert _ _ _ _).mp hk with hk | hk
          · exact hfresh item' (List.mem_cons_of_mem _ hmem) v₁ hk
          · exact hnd.1 (hk ▸ List.mem_map_of_mem pyStr hmem)
        · rw [if_neg hc]
          exact hfresh item' (List.mem_cons_of_mem _ hmem) v₁

/-- With a threshold above `1`, every item's verdict is `unverified`, since
confidences are clamped into `[0, 1]`. -/
theorem itemVerdict_unverified (p : List Char) {th : ℚ} (hth : 1 < th)
    (k : List Char) : itemVerdict p th k = Verdict.unverified := by
  rw [itemVerdict, verdictOf, if_neg]
  rintro ⟨h1, -⟩
  have h2 := (scoreItem_confidence_mem k p (1 / 2)).2
  linarith

/-- With a threshold above `1`, the inner loop never touches any `verified`
bucket or counter. -/
theorem foldl_verified_untouched (p : List Char) {th : ℚ} (hth : 1 < th)
    (s : Subject) :
    ∀ (items : List PyVal) (st : VState) (s' : Subject),
      (items.foldl (processItem p th s) st).report s' Verdict.verified =
        st.report s' Verdict.verified ∧
      (items.foldl (processItem p th s) st).matchCounts s' Verdict.verified =
        st.matchCounts s' Verdict.verified := by
  intro items
  induction items with
  | nil => intro st s'; exact ⟨rfl, rfl⟩
  | cons item rest ih =>
      intro st s'
      rw [List.foldl_cons]
      have hv := itemVerdict_unverified p hth (pyStr item)
      have hne : ¬(s' = s ∧ Verdict.verified = itemVerdict p th (pyStr item)) := by
        rintro ⟨-, hc⟩
        rw [hv] at hc
        exact Verdict.noConfusion hc
      constructor
      · rw [(ih _ s').1, processItem_report, if_neg hne]
      · rw [(ih _ s').2, processItem_counts, if_neg hne]

/-! ## Claim theorems about `validate` -/

/-- Claim C5: every claim occurring in a category's input list appears (as
its coerced string key) in exactly one `(Category, Verdict)` bucket of the
report produced by `validate`: it is present in the bucket of its determined
verdict, and in no other verdict's bucket of that category. -/
theorem C5_exactly_one_bucket (p : List Char) (f : Subject → List PyVal) (th : ℚ)
    (s : Subject) (item : PyVal) (h : item ∈ f s) :
    ∃! v, pyStr item ∈ dictKeys ((validate p f th).report s v) := by
  have hgood : GoodState p th (validate p f th) := by
    simp only [validate, subjects, List.foldl_cons, List.foldl_nil]
    exact foldl_goodState p th .treatments _ _
      (foldl_goodState p th .injuries _ _
        (fun s v k hk => absurd hk (List.not_mem_nil k)))
  have hmem : pyStr item ∈
      dictKeys ((validate p f th).report s (itemVerdict p th (pyStr item))) := by
    simp only [validate, subjects, List.foldl_cons, List.foldl_nil]
    cases s with
    | injuries =>
        exact foldl_report_mem_preserved p th .treatments (f .treatments) _ _ _ _
          (foldl_report_mem p th .injuries (f .injuries) initState item h)
    | treatments =>
        exact foldl_report_mem p th .treatments (f .treatments) _ item h
  exact ⟨itemVerdict p th (pyStr item), hmem,
    fun v hv => hgood s v (pyStr item) hv⟩

/-- Witness for C5 at a concrete input. -/
theorem C5_exactly_one_bucket_witness :
    ∃! v, pyStr (PyVal.pystr ['a']) ∈
      dictKeys ((validate [] c5Input (1 / 2)).report Subject.injuries v) :=
  C5_exactly_one_bucket [] c5Input (1 / 2) Subject.injuries (.pystr ['a']) (by decide)

/-- Claim C6 amended: `validate` performs no input-shape validation and
never rejects — every item of every category list is processed (after `str`
coercion), and per category the verdict counters always total the input list
length. -/
theorem C6_amended_total_processing (p : List Char) (f : Subject → List PyVal)
    (th : ℚ) :
    ∀ s, (validate p f th).matchCounts s Verdict.verified +
        (validate p f th).matchCounts s Verdict.unverified = (f s).length := by
  intro s
  simp only [validate, subjects, List.foldl_cons, List.foldl_nil]
  cases s with
  | injuries =>
      rw [foldl_counts_other p th .treatments (f .treatments) _ .injuries
          Verdict.verified (fun h => Subject.noConfusion h),
        foldl_counts_other p th .treatments (f .treatments) _ .injuries
          Verdict.unverified (fun h => Subject.noConfusion h),
        foldl_counts_total p th .injuries (f .injuries) initState]
      simp [initState]
  | treatments =>
      rw [foldl_counts_total p th .treatments (f .treatments) _,
        foldl_counts_other p th .injuries (f .injuries) initState .treatments
          Verdict.verified (fun h => Subject.noConfusion h),
        foldl_counts_other p th .injuries (f .injuries) initState .treatments
          Verdict.unverified (fun h => Subject.noConfusion h)]
      simp [initState]

/-- Claim C4 amended: whenever the claim strings within each category are
pairwise distinct, every counter equals the size of its report bucket.
(Buckets are dicts keyed by the claim string, so duplicated claim strings
collapse to one entry while the counter still increments per occurrence —
see the counterexample.) -/
theorem C4_amended_counts_match_buckets (p : List Char) (f : Subject → List PyVal)
    (th : ℚ) (hnd : ∀ s, ((f s).map pyStr).Nodup) :
    ∀ s v, (validate p f th).matchCounts s v =
      ((validate p f th).report s v).length := by
  simp only [validate, subjects, List.foldl_cons, List.foldl_nil]
  have h1 := foldl_countInv p th .injuries (f .injuries) initState
    (fun s' v => rfl)
    (fun item _ v => List.not_mem_nil _)
    (hnd .injuries)
  refine foldl_countInv p th .treatments (f .treatments) _ h1 ?_ (hnd .treatments)
  intro item hm v
  rw [foldl_report_other p th .injuries (f .injuries) initState .treatments v
    (fun h => Subject.noConfusion h)]
  exact List.not_mem_nil _

/-- Witness for the amended C4 at a concrete duplicate-free input. -/
theorem C4_amended_counts_match_buckets_witness :
    (validate [] c4wInput (1 / 2)).matchCounts Subject.injuries Verdict.unverified =
      ((validate [] c4wInput (1 / 2)).report Subject.injuries Verdict.unverified).length :=
  C4_amended_counts_match_buckets [] c4wInput (1 / 2)
    (fun s => by cases s <;> decide) Subject.injuries Verdict.unverified

/-! ## Concrete evaluations for the counterexamples -/

/-- The claim `"a"` scored against the empty plaintext: no match,
confidence `0`. -/
theorem score_a_nil : scoreItem ['a'] [] (1 / 2) = (0, []) := by
  rw [scoreItem_spec ['a'] [] (by norm_num) (by decide)]
  have h1 : matchRuns (tokenize (lowerChars ['a'])) (lowerChars []) = ([], []) := by decide
  have h2 : (tokenize (lowerChars ['a'])).length = 1 := by decide
  rw [h1, h2, Prod.mk.injEq]
  exact ⟨by rw [rawScore_nil, zero_div], rfl⟩

/-- Against the empty plaintext, the item `"a"` is `unverified`. -/
theorem itemVerdict_a_nil : itemVerdict [] (1 / 2) ['a'] = Verdict.unverified := by
  rw [itemVerdict, score_a_nil, verdictOf, if_neg]
  rintro ⟨-, h⟩
  exact h rfl

/-- Counterexample to claim C4 as stated: with the claim string `"a"`
occurring twice under `injuries`, `validate` increments the `unverified`
counter twice (`match_counts` is per item) but the report bucket — a dict
keyed by the claim string — holds a single entry, so
`SummaryCounts[c][v] ≠ len(VerificationReport[c][v])`. -/
theorem C4_counterexample :
    (validate [] dupInput (1 / 2)).matchCounts Subject.injuries Verdict.unverified ≠
      ((validate [] dupInput (1 / 2)).report Subject.injuries Verdict.unverified).length := by
  have hpy : pyStr (PyVal.pystr ['a']) = ['a'] := rfl
  simp only [validate, subjects, List.foldl_cons, List.foldl_nil, dupInput]
  rw [processItem_counts, processItem_counts, hpy, itemVerdict_a_nil]
  rw [if_pos ⟨rfl, rfl⟩, if_pos ⟨rfl, rfl⟩]
  rw [processItem_report, processItem_report, hpy, itemVerdict_a_nil]
  rw [if_pos ⟨rfl, rfl⟩, if_pos ⟨rfl, rfl⟩]
  simp only [initState, dictInsert, if_pos rfl]
  decide

/-- Python's `str(5)` is the string `"5"`. -/
theorem pyStr_five : pyStr (PyVal.pyint 5) = ['5'] := by decide

/-- The coerced claim `"5"` scored against the empty plaintext: no match,
confidence `0`. -/
theorem score_five_nil : scoreItem ['5'] [] (1 / 2) = (0, []) := by
  rw [scoreItem_spec ['5'] [] (by norm_num) (by decide)]
  have h1 : matchRuns (tokenize (lowerChars ['5'])) (lowerChars []) = ([], []) := by decide
  have h2 : (tokenize (lowerChars ['5'])).length = 1 := by decide
  rw [h1, h2, Prod.mk.injEq]
  exact ⟨by rw [rawScore_nil, zero_div], rfl⟩

/-- Against the empty plaintext, the coerced item `"5"` is `unverified`. -/
theorem itemVerdict_five_nil : itemVerdict [] (1 / 2) ['5'] = Verdict.unverified := by
  rw [itemVerdict, score_five_nil, verdictOf, if_neg]
  rintro ⟨-, h⟩
  exact h rfl

/-- Counterexample to claim C6 as stated: on a claims structure whose
`injuries` value is not a list of strings (it contains the integer `5`),
`validate` raises no `MalformedInput` error — it silently coerces the item
through `str(5) = "5"`, processes it to completion and produces a full
report containing the coerced key. -/
theorem C6_counterexample :
    (validate [] badInput (1 / 2)).report Subject.injuries Verdict.unverified =
      [(['5'], (0, []))] ∧
    (validate [] badInput (1 / 2)).matchCounts Subject.injuries Verdict.unverified = 1 := by
  simp only [validate, subjects, List.foldl_cons, List.foldl_nil, badInput]
  constructor
  · rw [processItem_report, pyStr_five, itemVerdict_five_nil, if_pos ⟨rfl, rfl⟩,
      score_five_nil]
    simp only [initState, dictInsert]
  · rw [processItem_counts, pyStr_five, itemVerdict_five_nil, if_pos ⟨rfl, rfl⟩]
    rfl

/-- The claim `"a"` scored against the plaintext `"a"`: a full single-token
run, confidence exactly `1`. -/
theorem score_a_a : scoreItem ['a'] ['a'] (1 / 2) = (1, [['a']]) := by
  rw [scoreItem_spec ['a'] ['a'] (by norm_num) (by decide)]
  have h1 : matchRuns (tokenize (lowerChars ['a'])) (lowerChars ['a']) = ([1], [['a']]) := by
    decide
  have h2 : (tokenize (lowerChars ['a'])).length = 1 := by decide
  rw [h1, h2, Prod.mk.injEq]
  exact ⟨by norm_num [rawScore, maxScore], rfl⟩

/-- With the out-of-range threshold `2`, even a perfectly matched claim is
`unverified`. -/
theorem itemVerdict_a_two : itemVerdict ['a'] 2 ['a'] = Verdict.unverified := by
  rw [itemVerdict, score_a_a, verdictOf, if_neg]
  rintro ⟨h, -⟩
  norm_num at h

/-- Counterexample to claim C7 as stated: called with the threshold `2`,
which lies outside `[0, 1]`, `validate` reports no `InvalidThreshold` error —
it runs the whole pipeline with that threshold and produces a complete
report (the fully matched claim `"a"`, confidence `1`, lands in
`unverified` because `1 < 2`). -/
theorem C7_counterexample :
    (validate ['a'] c7Input 2).report Subject.injuries Verdict.unverified =
      [(['a'], (1, [['a']]))] ∧
    (validate ['a'] c7Input 2).matchCounts Subject.injuries Verdict.unverified = 1 := by
  simp only [validate, subjects, List.foldl_cons, List.foldl_nil, c7Input]
  constructor
  · rw [processItem_report,
      show pyStr (PyVal.pystr ['a']) = ['a'] from rfl, itemVerdict_a_two,
      if_pos ⟨rfl, rfl⟩, score_a_a]
    simp only [initState, dictInsert]
  · rw [processItem_counts,
      show pyStr (PyVal.pystr ['a']) = ['a'] from rfl, itemVerdict_a_two,
      if_pos ⟨rfl, rfl⟩]
    rfl

/-- Claim C7 amended: `validate` performs no threshold validation — any
threshold is accepted and the pipeline runs with it; since every confidence
is clamped into `[0, 1]`, a threshold above `1` simply classifies every
claim `unverified`: all `verified` buckets stay empty with zero counts. -/
theorem C7_amended_no_threshold_check (p : List Char) (f : Subject → List PyVal)
    {th : ℚ} (hth : 1 < th) :
    ∀ s, (validate p f th).report s Verdict.verified = [] ∧
      (validate p f th).matchCounts s Verdict.verified = 0 := by
  intro s
  simp only [validate, subjects, List.foldl_cons, List.foldl_nil]
  constructor
  · rw [(foldl_verified_untouched p hth .treatments (f .treatments) _ s).1,
      (foldl_verified_untouched p hth .injuries (f .injuries) initState s).1]
    rfl
  · rw [(foldl_verified_untouched p hth .treatments (f .treatments) _ s).2,
      (foldl_verified_untouched p hth .injuries (f .injuries) initState s).2]
    rfl

/-- Witness for the amended C7 at the concrete threshold `2`. -/
theorem C7_amended_no_threshold_check_witness :
    (validate ['a'] c7Input 2).report Subject.injuries Verdict.verified = [] ∧
      (validate ['a'] c7Input 2).matchCounts Subject.injuries Verdict.verified = 0 :=
  C7_amended_no_threshold_check ['a'] c7Input (by decide) Subject.injuries

end Intellimed
